import Mathlib

/-!
Shallow embedding of the inventory demo program (`src/main.rs`) and proofs
about it.

Modelling conventions:
* Rust `String`/`&str` values are modelled as `List Char` (their sequence of
  Unicode scalar values); byte positions are recovered through `Char.utf8Size`.
* `f64` prices are modelled as exact rationals `ℚ`.  Every property proved
  here uses only order comparisons against `0` and exact decimal literals, on
  which `f64` (for non-NaN values) and `ℚ` agree.
* `i32` quantities are modelled as `Int` with explicit two's-complement
  wrap-around (`wrap32`) where the code performs arithmetic, matching the
  release-mode wrapping semantics of `+=` on `i32`.
* Code that can panic (string slicing at a non-character-boundary) returns
  `Option`, with `none` for the panic.
* `println!` side effects are modelled by returning the emitted line.
-/

namespace RustDemo

/-- `struct ValidationError { message: String }`. -/
structure ValidationError where
  message : String
deriving DecidableEq, Repr

/-- `Result<(), ValidationError>` as returned by `validate`. -/
inductive VResult where
  | ok : VResult
  | err : ValidationError → VResult
deriving DecidableEq, Repr

/-- `struct Product { name: String, price: f64, quantity: i32 }`. -/
structure Product where
  name : String
  price : ℚ
  quantity : Int
deriving DecidableEq, Repr

/-- `Product::validate`: price checked first, then quantity. -/
def validate (p : Product) : VResult :=
  if p.price < 0 then .err ⟨"Price cannot be negative"⟩
  else if p.quantity < 0 then .err ⟨"Quantity cannot be negative"⟩
  else .ok

/-- Two's-complement reduction of an integer into the `i32` range. -/
def wrap32 (n : Int) : Int :=
  (n + 2147483648) % 4294967296 - 2147483648

/-- `Product::is_low_stock`: strict comparison of quantity with the threshold. -/
def is_low_stock (p : Product) (threshold : Int) : Bool :=
  p.quantity < threshold

/-- `Product::restock`: mutates `quantity += amount` (i32 wrap-around) and
emits the log line `"Restocked <name> by <amount> units"`.  The updated
product and the emitted line are returned. -/
def restock (p : Product) (amount : Int) : Product × String :=
  ({ p with quantity := wrap32 (p.quantity + amount) },
   "Restocked " ++ p.name ++ " by " ++ toString amount ++ " units")

/-- Two-digit zero-padded rendering of a fraction part. -/
def pad2 (n : Nat) : String :=
  if n < 10 then "0" ++ toString n else toString n

/-- Nearest integer to a rational, ties to even (the rounding used by Rust's
fixed-precision float formatting). -/
def roundHalfEven (x : ℚ) : Int :=
  let f := x.floor
  if x - f < 1/2 then f
  else if (1:ℚ)/2 < x - f then f + 1
  else if f % 2 = 0 then f else f + 1

/-- Rendering of a price with exactly two decimal places (`{:.2}`). -/
def fmt2 (q : ℚ) : String :=
  let c := roundHalfEven (q * 100)
  (if c < 0 then "-" else "") ++ toString (c.natAbs / 100) ++ "." ++ pad2 (c.natAbs % 100)

/-- `Product::serialize`:
`format!("Product\x7bname={},price={:.2},quantity={}\x7d", ...)`. -/
def serialize (p : Product) : String :=
  "Product\x7bname=" ++ p.name ++ ",price=" ++ fmt2 p.price ++
    ",quantity=" ++ toString p.quantity ++ "\x7d"

/-- UTF-8 byte length of a string, as Rust's `str::len`. -/
def byteLen (s : List Char) : Nat :=
  (s.map Char.utf8Size).sum

/-- Byte slicing `&s[..n]` restricted to the front of the string: returns the
characters making up the first `n` bytes, or `none` (a panic in Rust) when `n`
does not fall on a character boundary or exceeds the length. -/
def takeBytes : List Char → Nat → Option (List Char)
  | _, 0 => some []
  | [], _ + 1 => none
  | c :: cs, n + 1 =>
    if c.utf8Size ≤ n + 1 then
      (takeBytes cs (n + 1 - c.utf8Size)).map (fun t => c :: t)
    else none

/-- `<str as StringExt>::truncate`: returns the string when its byte length is
at most `max_length`, otherwise the first `max_length` bytes followed by
`"..."`; `none` models the slicing panic at a non-character-boundary. -/
def truncate (s : List Char) (max_length : Nat) : Option (List Char) :=
  if byteLen s ≤ max_length then some s
  else (takeBytes s max_length).map (fun t => t ++ "...".data)

/-- Rust's `str::is_char_boundary` for a front position: `n` is the byte
length of some character prefix of `s`. -/
def isCharBoundary (s : List Char) (n : Nat) : Bool :=
  (List.range (s.length + 1)).any (fun k => byteLen (s.take k) == n)

/-- `char::is_whitespace`: the Unicode `White_Space` property. -/
def isRustWhitespace (c : Char) : Bool :=
  decide (c.toNat ∈ ([9, 10, 11, 12, 13, 32, 133, 160, 5760,
                      8232, 8233, 8239, 8287, 12288] : List Nat)) ||
  decide (8192 ≤ c.toNat ∧ c.toNat ≤ 8202)

/-- `str::split` at every whitespace character: the list of (possibly empty)
segments between whitespace characters. -/
def splitOnWs : List Char → List (List Char)
  | [] => [[]]
  | c :: cs =>
    if isRustWhitespace c then [] :: splitOnWs cs
    else
      match splitOnWs cs with
      | [] => [[c]]
      | s :: ss => (c :: s) :: ss

/-- `str::split_whitespace`: split at whitespace characters and drop the empty
segments. -/
def split_whitespace (s : List Char) : List (List Char) :=
  (splitOnWs s).filter (fun seg => !seg.isEmpty)

/-- `<str as StringExt>::word_count`: `self.split_whitespace().count()`. -/
def word_count (s : List Char) : Nat :=
  (split_whitespace s).length

/-- Modelled from the spec's words (§4.4): the number of maximal runs of
non-whitespace characters, i.e. the number of non-empty segments obtained by
splitting on runs of whitespace.  `inWord` records whether the previous
character belonged to a run. -/
def specRunCount : List Char → Bool → Nat
  | [], _ => 0
  | c :: cs, inWord =>
    if isRustWhitespace c then specRunCount cs false
    else (if inWord then 0 else 1) + specRunCount cs true

/-- `filter_items`: `items.iter().filter(|&item| predicate(item)).cloned().collect()`. -/
def filter_items {α : Type} (items : List α) (predicate : α → Bool) : List α :=
  match items with
  | [] => []
  | x :: xs => if predicate x then x :: filter_items xs predicate else filter_items xs predicate

/-- Whether a string starts with a non-whitespace character. -/
def headNonWs : List Char → Bool
  | [] => false
  | c :: _ => !isRustWhitespace c

/-- The `laptop` sample product built in `main` (price literal `1999.99`,
written as the exact rational `199999/100`). -/
def laptop : Product :=
  { name := "MacBook Pro", price := mkRat 199999 100, quantity := 5 }

/-- The `keyboard` sample product built in `main` (price literal `129.99`,
written as the exact rational `12999/100`). -/
def keyboard : Product :=
  { name := "Mechanical Keyboard", price := mkRat 12999 100, quantity := 2 }

/-- C1: `validate` reports the price error whenever `price < 0` (regardless of
the quantity), and the quantity error whenever `price >= 0` and
`quantity < 0`; only the first failing check is reported. -/
theorem validate_first_failure (p : Product) :
    (p.price < 0 → validate p = .err ⟨"Price cannot be negative"⟩) ∧
    (0 ≤ p.price → p.quantity < 0 → validate p = .err ⟨"Quantity cannot be negative"⟩) := by
  refine ⟨fun h1 => ?_, fun h1 h2 => ?_⟩
  · simp [validate, h1]
  · simp [validate, not_lt.mpr h1, h2]

/-- Witness for C1: a concrete negative-price product and a concrete
negative-quantity product. -/
theorem validate_first_failure_witness :
    validate ⟨"a", mkRat (-1) 1, 5⟩ = .err ⟨"Price cannot be negative"⟩ ∧
    validate ⟨"b", mkRat 1 1, -2⟩ = .err ⟨"Quantity cannot be negative"⟩ :=
  ⟨(validate_first_failure ⟨"a", mkRat (-1) 1, 5⟩).1 (by decide),
   (validate_first_failure ⟨"b", mkRat 1 1, -2⟩).2 (by decide) (by decide)⟩

/-- C7: `validate` succeeds on every product with non-negative price and
non-negative quantity. -/
theorem validate_ok_of_nonneg (p : Product) (hp : 0 ≤ p.price) (hq : 0 ≤ p.quantity) :
    validate p = .ok := by
  simp [validate, not_lt.mpr hp, not_lt.mpr hq]

/-- Witness for C7: the `laptop` sample product validates successfully. -/
theorem validate_ok_of_nonneg_witness : validate laptop = .ok :=
  validate_ok_of_nonneg laptop (by decide) (by decide)

/-- C5: `is_low_stock threshold` is true exactly when `quantity < threshold`;
in particular it is false when the quantity equals the threshold. -/
theorem is_low_stock_iff (p : Product) (threshold : Int) :
    (is_low_stock p threshold = true ↔ p.quantity < threshold) ∧
    (p.quantity = threshold → is_low_stock p threshold = false) := by
  refine ⟨by simp [is_low_stock], fun h => by simp [is_low_stock, h]⟩

/-- Witness for C5: the keyboard (quantity 2) is low stock at threshold 3 and
not low stock at threshold 2. -/
theorem is_low_stock_iff_witness :
    is_low_stock keyboard 3 = true ∧ is_low_stock keyboard 2 = false :=
  ⟨(is_low_stock_iff keyboard 3).1.mpr (by decide),
   (is_low_stock_iff keyboard 2).2 (by decide)⟩

/-- C6: restocking by `a` and then by `b` leaves the same final quantity as a
single restock by `a + b`, for all integer amounts (including negative ones),
under the two's-complement wrap-around of `i32` addition. -/
theorem restock_restock_eq_restock_add (p : Product) (a b : Int) :
    ((restock (restock p a).1 b).1).quantity = (restock p (a + b)).1.quantity := by
  simp only [restock, wrap32]
  omega

/-- C10: `restock` changes only the quantity; the name and the price are
unchanged. -/
theorem restock_frame (p : Product) (amount : Int) :
    (restock p amount).1.name = p.name ∧ (restock p amount).1.price = p.price :=
  ⟨rfl, rfl⟩

/-- C2: `filter_items` returns exactly the elements satisfying the predicate,
in their original relative order (it coincides with `List.filter` and is a
sublist of the input); the input list itself is a value that is not mutated.
In particular, filtering the sample products by `is_low_stock 3` yields
exactly `[keyboard]`. -/
theorem filter_items_spec :
    (∀ (α : Type) (items : List α) (p : α → Bool),
      filter_items items p = items.filter p ∧ (filter_items items p).Sublist items) ∧
    filter_items [laptop, keyboard] (fun pr => is_low_stock pr 3) = [keyboard] := by
  have key : ∀ (α : Type) (items : List α) (p : α → Bool),
      filter_items items p = items.filter p := by
    intro α items p
    induction items with
    | nil => rfl
    | cons x xs ih =>
      by_cases h : p x = true
      · simp [filter_items, List.filter, h, ih]
      · simp [filter_items, List.filter, h, ih]
  refine ⟨fun α items p => ⟨key α items p, ?_⟩, by decide⟩
  rw [key α items p]
  exact List.filter_sublist items

theorem specRunCount_false_eq (s : List Char) :
    specRunCount s false = specRunCount s true + (if headNonWs s = true then 1 else 0) := by
  cases s with
  | nil => rfl
  | cons c cs =>
    by_cases h : isRustWhitespace c = true
    · simp [specRunCount, headNonWs, h]
    · simp [specRunCount, headNonWs, h]
      omega

theorem splitOnWs_ne_nil (s : List Char) : splitOnWs s ≠ [] := by
  cases s with
  | nil => simp [splitOnWs]
  | cons c cs =>
    by_cases h : isRustWhitespace c = true
    · simp [splitOnWs, h]
    · simp only [splitOnWs, if_neg h]
      cases splitOnWs cs <;> simp

theorem splitOnWs_head_isEmpty (s : List Char) (seg : List Char) (ss : List (List Char))
    (h : splitOnWs s = seg :: ss) : seg.isEmpty = !headNonWs s := by
  cases s with
  | nil =>
    simp [splitOnWs] at h
    simp [← h.1, headNonWs]
  | cons c cs =>
    by_cases hw : isRustWhitespace c = true
    · simp only [splitOnWs, if_pos hw] at h
      have hseg : seg = [] := (List.cons.injEq _ _ _ _ ▸ h).1.symm
      simp [hseg, headNonWs, hw]
    · simp only [splitOnWs, if_neg hw] at h
      cases hsplit : splitOnWs cs with
      | nil => exact absurd hsplit (splitOnWs_ne_nil cs)
      | cons t ts =>
        rw [hsplit] at h
        have hseg : seg = c :: t := (List.cons.injEq _ _ _ _ ▸ h).1.symm
        simp [hseg, headNonWs, hw]

/-- C9: `word_count` equals the number of maximal non-whitespace runs, i.e.
the number of non-empty segments obtained by splitting on runs of whitespace;
in particular it is 2 on `"  a   b  "` and 0 on `""`. -/
theorem word_count_eq_run_count :
    (∀ s : List Char, word_count s = specRunCount s false) ∧
    word_count "  a   b  ".data = 2 ∧ word_count "".data = 0 := by
  have main : ∀ s : List Char, word_count s = specRunCount s false := by
    intro s
    induction s with
    | nil => rfl
    | cons c cs ih =>
      by_cases hw : isRustWhitespace c = true
      · simpa [word_count, split_whitespace, splitOnWs, hw, specRunCount] using ih
      · cases hsplit : splitOnWs cs with
        | nil => exact absurd hsplit (splitOnWs_ne_nil cs)
        | cons t ts =>
          have hseg := splitOnWs_head_isEmpty cs t ts hsplit
          have hA := specRunCount_false_eq cs
          have ihcs : (List.filter (fun seg => !seg.isEmpty) (t :: ts)).length
              = specRunCount cs false := by
            simpa [word_count, split_whitespace, hsplit] using ih
          simp only [word_count, split_whitespace, splitOnWs, if_neg hw, hsplit, specRunCount,
            Bool.false_eq_true, if_false]
          by_cases hh : headNonWs cs = true
          · rw [hh, Bool.not_true] at hseg
            simp [List.filter, hseg] at ihcs
            simp [hh] at hA
            simp [List.filter]
            omega
          · rw [Bool.not_eq_true] at hh
            rw [hh, Bool.not_false] at hseg
            simp [List.filter, hseg] at ihcs
            simp [hh] at hA
            simp [List.filter]
            omega
  exact ⟨main, by decide, by decide⟩

theorem takeBytes_take (s : List Char) (k : Nat) :
    takeBytes s (byteLen (s.take k)) = some (s.take k) := by
  induction s generalizing k with
  | nil => simp [byteLen, takeBytes]
  | cons c cs ih =>
    cases k with
    | zero => simp [byteLen, takeBytes]
    | succ k =>
      have hsz := Char.utf8Size_pos c
      rw [List.take_succ_cons]
      have hb : byteLen (c :: cs.take k) = c.utf8Size + byteLen (cs.take k) := by
        simp [byteLen]
      obtain ⟨m, hm⟩ : ∃ m, c.utf8Size + byteLen (cs.take k) = m + 1 :=
        ⟨c.utf8Size + byteLen (cs.take k) - 1, by omega⟩
      rw [hb, hm]
      simp only [takeBytes]
      rw [if_pos (by omega)]
      have hrest : m + 1 - c.utf8Size = byteLen (cs.take k) := by omega
      rw [hrest, ih]
      rfl

theorem takeBytes_some (s : List Char) (n : Nat) (pre : List Char)
    (h : takeBytes s n = some pre) : pre <+: s ∧ byteLen pre = n := by
  induction s generalizing n pre with
  | nil =>
    cases n with
    | zero =>
      simp [takeBytes] at h
      simp [h, byteLen]
    | succ n => simp [takeBytes] at h
  | cons c cs ih =>
    cases n with
    | zero =>
      simp [takeBytes] at h
      simp [h, byteLen]
    | succ n =>
      simp only [takeBytes] at h
      by_cases hsz : c.utf8Size ≤ n + 1
      · rw [if_pos hsz] at h
        obtain ⟨t, ht, hpre⟩ : ∃ t, takeBytes cs (n + 1 - c.utf8Size) = some t ∧ pre = c :: t := by
          cases htb : takeBytes cs (n + 1 - c.utf8Size) with
          | none => rw [htb] at h; simp at h
          | some t => rw [htb] at h; simp at h; exact ⟨t, rfl, h.symm⟩
        obtain ⟨hp, hlen⟩ := ih (n + 1 - c.utf8Size) t ht
        obtain ⟨r, hr⟩ := hp
        subst hpre
        refine ⟨⟨r, by simp [← hr]⟩, ?_⟩
        simp [byteLen] at hlen ⊢
        omega
      · rw [if_neg hsz] at h
        simp at h

theorem isCharBoundary_iff_takeBytes (s : List Char) (n : Nat) :
    isCharBoundary s n = true ↔ (takeBytes s n).isSome = true := by
  constructor
  · intro h
    obtain ⟨k, _, hbeq⟩ := List.any_eq_true.mp h
    have hk : byteLen (s.take k) = n := by simpa using hbeq
    rw [← hk, takeBytes_take]
    rfl
  · intro h
    obtain ⟨pre, hpre⟩ := Option.isSome_iff_exists.mp h
    obtain ⟨hp, hlen⟩ := takeBytes_some s n pre hpre
    refine List.any_eq_true.mpr ⟨pre.length, List.mem_range.mpr ?_, ?_⟩
    · have := hp.length_le
      omega
    · obtain ⟨r, hr⟩ := hp
      have ht : s.take pre.length = pre := by
        rw [← hr]
        exact List.take_left pre r
      simp [ht, hlen]

/-- C3 (amended): `truncate` returns a value whenever `maxLength` is at least
the byte length of the text or falls on a character boundary; the original
claim of totality at every position fails because byte slicing strictly
inside a multi-byte character panics. -/
theorem truncate_isSome_of_boundary (s : List Char) (n : Nat)
    (h : byteLen s ≤ n ∨ isCharBoundary s n = true) :
    (truncate s n).isSome = true := by
  by_cases hle : byteLen s ≤ n
  · simp [truncate, hle]
  · rcases h with h | h
    · exact absurd h hle
    · obtain ⟨pre, hpre⟩ :=
        Option.isSome_iff_exists.mp ((isCharBoundary_iff_takeBytes s n).mp h)
      simp [truncate, hle, hpre]

/-- Witness for C3 (amended): truncating `"hello"` to 10 bytes succeeds. -/
theorem truncate_isSome_of_boundary_witness : (truncate "hello".data 10).isSome = true :=
  truncate_isSome_of_boundary "hello".data 10 (Or.inl (by decide))

/-- Counterexample to C3 as stated: truncating the one-character string `"é"`
(2 bytes in UTF-8) to 1 byte panics (models as `none`), so `truncate` is not
total over every position inside the text. -/
theorem truncate_not_total : (truncate "é".data 1).isSome = false := by decide

/-- C4 (amended): when the byte length of `t` is at most `n`, `truncate`
returns `t` unchanged; when `n` is shorter and falls on a character boundary,
it returns exactly the first `n` bytes of `t` followed by `"..."`; when `n`
falls strictly inside a character the slice panics (models as `none`). -/
theorem truncate_first_bytes (t : List Char) (n : Nat) :
    (byteLen t ≤ n → truncate t n = some t) ∧
    (n < byteLen t → isCharBoundary t n = true →
      ∃ pre, pre <+: t ∧ byteLen pre = n ∧ truncate t n = some (pre ++ "...".data)) ∧
    (n < byteLen t → isCharBoundary t n = false → truncate t n = none) := by
  refine ⟨fun h => by simp [truncate, h], fun hlt hb => ?_, fun hlt hb => ?_⟩
  · obtain ⟨pre, hpre⟩ :=
      Option.isSome_iff_exists.mp ((isCharBoundary_iff_takeBytes t n).mp hb)
    obtain ⟨hp, hlen⟩ := takeBytes_some t n pre hpre
    exact ⟨pre, hp, hlen, by simp [truncate, Nat.not_le.mpr hlt, hpre]⟩
  · have hnone : takeBytes t n = none := by
      cases htb : takeBytes t n with
      | none => rfl
      | some pre =>
        have : isCharBoundary t n = true :=
          (isCharBoundary_iff_takeBytes t n).mpr (by simp [htb])
        rw [this] at hb
        cases hb
    simp [truncate, Nat.not_le.mpr hlt, hnone]

/-- Witness for C4 (amended): truncating `"ab"` to 1 byte keeps exactly the
first byte and appends the ellipsis. -/
theorem truncate_first_bytes_witness :
    ∃ pre, pre <+: "ab".data ∧ byteLen pre = 1 ∧
      truncate "ab".data 1 = some (pre ++ "...".data) :=
  (truncate_first_bytes "ab".data 1).2.1 (by decide) (by decide)

/-- Counterexample to C4 as stated: `"aé"` is 3 bytes long, so for
`maxLength = 2` the claim promises the first 2 bytes plus `"..."`, but the
code panics (models as `none`) because byte 2 is inside the two-byte
character. -/
theorem truncate_no_first_bytes : byteLen "aé".data = 3 ∧ truncate "aé".data 2 = none := by
  decide

/-- C8: `serialize` renders the laptop sample exactly as
`Product\x7bname=MacBook Pro,price=1999.99,quantity=5\x7d` (price shown with
two decimals). -/
theorem serialize_laptop :
    serialize laptop = "Product\x7bname=MacBook Pro,price=1999.99,quantity=5\x7d" := by
  with_unfolding_all decide

end RustDemo
